import Mathlib

/-!
# Network: node values and undirected links

A verification development for `src/src/network.cpp`.

The class `Network` holds `std::vector<double> values` and
`std::multimap<size_t, size_t> links`.  The embedding below keeps the two
members as lists:

* `values` is the list of node values; the value type is a parameter `α`,
  since no operation of the class computes with a value except
  `sorted_values`;
* `links` is the list of the multimap's entries in iteration order: ordered
  by key, entries of one key in the order they were inserted.

Indices (`size_t`) are natural numbers.  The `int` loop counters of
`random_connect` are natural numbers as well (the model is that of runs in
which they stay below `2^31`); an `int` candidate handed to `add_link` is
converted to `size_t` modulo `2^64`, as the call does.

The random service (`RNG`, declared in `random.h`) is not part of the sources;
what it hands back during one call is a parameter, `RandomService`.
-/

/-- The state of a `Network` object: its members `values` and `links`. -/
structure Network (α : Type) where
  values : List α
  links : List (Nat × Nat)
deriving DecidableEq, Repr

/-- What the random service `RNG` hands back during one call of a `Network`
operation: `normal i` is the sample that `RNG.normal(values, 0, 1)` writes at
position `i`, `poisson it` is the value of `RNG.poisson(n)` drawn in the
iteration of node `it`, and `uniform_int it i` is the `int` that
`RNG.uniform_int(v, 0, values.size()-1)` writes at position `i` of the vector
`v` of node `it`.  No range is assumed of any of them. -/
structure RandomService (α : Type) where
  normal : Nat → α
  poisson : Nat → Nat
  uniform_int : Nat → Nat → Int

namespace Network

variable {α : Type}

/-- A newly constructed network: both members are default-constructed. -/
def empty : Network α := ⟨[], []⟩

/-- The call `links.insert({k, v})` on the multimap: the entry goes after every
entry whose key is not greater than `k` (the upper bound of `k`), which keeps
keys in order and equal keys in insertion order. -/
def multimap_insert (p : Nat × Nat) : List (Nat × Nat) → List (Nat × Nat)
  | [] => [p]
  | q :: rest => if p.1 < q.1 then p :: q :: rest else q :: multimap_insert p rest

/-- `Network::size`: the number of nodes. -/
def size (net : Network α) : Nat := net.values.length

/-- `Network::degree`: `links.count(_n)`, the number of entries of key `_n`. -/
def degree (net : Network α) (n : Nat) : Nat :=
  net.links.countP (fun p => p.1 == n)

/-- `Network::neighbors`: the mapped values of the entries of
`links.equal_range(n)`, in iteration order. -/
def neighbors (net : Network α) (n : Nat) : List Nat :=
  (net.links.filter (fun p => p.1 == n)).map Prod.snd

/-- `Network::resize`: `values` is cleared, resized to `size` and filled by
`RNG.normal`; `links` is not mentioned. -/
def resize (rng : RandomService α) (size : Nat) (net : Network α) : Network α :=
  { net with values := (List.range size).map rng.normal }

/-- `Network::add_link`: the boolean returned and the state afterwards. -/
def add_link (net : Network α) (num1 num2 : Nat) : Bool × Network α :=
  let v := neighbors net num1
  if num2 ∈ v then (false, net)
  else if num1 ≠ num2 ∧ num2 < net.values.length ∧ num1 < net.values.length then
    (true, { net with
      links := multimap_insert (num2, num1) (multimap_insert (num1, num2) net.links) })
  else (false, net)

/-- The first loop of `Network::random_connect`,
`for (iter = links.begin(); iter != links.end(); ++iter) links.erase(iter);`.
With no entry the body never runs.  With an entry, `links.erase(iter)`
destroys the node `iter` points to and invalidates `iter` (erasing from an
associative container invalidates the iterators to the erased element), and
the loop then evaluates `++iter` on the invalidated iterator, reading the
destroyed node: the behaviour is undefined and the model gives no result. -/
def erase_links : List (Nat × Nat) → Option (List (Nat × Nat))
  | [] => some []
  | _ :: _ => none

/-- Conversion of an `int` argument to the `const size_t&` parameter of
`add_link`. -/
def to_size_t (c : Int) : Nat := (c % 2 ^ 64).toNat

/-- The inner loop of `Network::random_connect` for node `it`: one `add_link`
per entry of `v`, `compteur` incremented on each success. -/
def connect_node (it : Nat) (v : List Int) (st : Nat × Network α) : Nat × Network α :=
  v.foldl (fun s c =>
    let r := add_link s.2 it (to_size_t c)
    (if r.1 then s.1 + 1 else s.1, r.2)) st

/-- The vector `v` of node `it`: `degree` entries, filled by
`RNG.uniform_int`. -/
def candidates (rng : RandomService α) (it : Nat) : List Int :=
  (List.range (rng.poisson it)).map (rng.uniform_int it)

/-- The second loop of `Network::random_connect`, over the nodes `its`. -/
def connect_nodes (rng : RandomService α) (its : List Nat) (st : Nat × Network α) :
    Nat × Network α :=
  its.foldl (fun s it => connect_node it (candidates rng it) s) st

/-- `Network::random_connect`: the count returned and the state afterwards, or
no result when the erasing loop has undefined behaviour.  The mean `n` only
reaches the random service. -/
def random_connect (rng : RandomService α) (net : Network α) : Option (Nat × Network α) :=
  match erase_links net.links with
  | none => none
  | some l =>
    some (connect_nodes rng (List.range net.values.length) (0, { net with links := l }))

/-- The loop `for (size_t i = 0; i < k; ++i) values[i] = newvalues[i];`. -/
def copy_values (k : Nat) (newvalues values : List α) : List α :=
  (List.range k).foldl (fun vs i =>
    match newvalues[i]? with
    | some x => vs.set i x
    | none => vs) values

/-- `Network::set_values`: the size returned and the state afterwards.  The
`else` of the source belongs to the second `if` only. -/
def set_values (net : Network α) (newvalues : List α) : Nat × Network α :=
  let values1 :=
    if net.values.length > newvalues.length then
      copy_values newvalues.length newvalues net.values
    else net.values
  let values2 :=
    if values1.length < newvalues.length then
      copy_values values1.length newvalues values1
    else newvalues
  (values2.length, { net with values := values2 })

/-- The states a program can reach from a newly constructed network by calls
of `resize`, `set_values`, `add_link` and `random_connect` whose behaviour is
defined, whatever the random service hands back.  A call of `random_connect`
is a step only where it has a result, which is on a network that holds no
link: on a network that holds one the call is undefined and reaches no
state. -/
inductive Reachable : Network α → Prop
  | init : Reachable empty
  | resize (rng : RandomService α) (size : Nat) {net : Network α} :
      Reachable net → Reachable (Network.resize rng size net)
  | set_values (newvalues : List α) {net : Network α} :
      Reachable net → Reachable (Network.set_values net newvalues).2
  | add_link (a b : Nat) {net : Network α} :
      Reachable net → Reachable (Network.add_link net a b).2
  | random_connect (rng : RandomService α) {net : Network α} {k : Nat} {net' : Network α} :
      Reachable net → Network.random_connect rng net = some (k, net') → Reachable net'

/-- The link relation is that of a simple undirected graph: with an entry its
reverse, no entry `(a, a)`, and no entry twice. -/
def WellFormed (l : List (Nat × Nat)) : Prop :=
  (∀ a b, (a, b) ∈ l → (b, a) ∈ l) ∧ (∀ a, (a, a) ∉ l) ∧ l.Nodup

/-- Every entry of the link relation has both indices below the node count. -/
def InRange (net : Network α) : Prop :=
  ∀ p ∈ net.links, p.1 < net.size ∧ p.2 < net.size

/-- The states reached from a newly constructed network by calls of
`add_link`, of `random_connect` made while the network holds no link, of
`resize(size)` made while no stored entry holds an index that is not below
`size`, and of `set_values` with a vector at least as long as the node
count. -/
inductive ReachableKeeping : Network α → Prop
  | init : ReachableKeeping empty
  | resize (rng : RandomService α) (size : Nat) {net : Network α} :
      ReachableKeeping net → (∀ p ∈ net.links, p.1 < size ∧ p.2 < size) →
      ReachableKeeping (Network.resize rng size net)
  | set_values (newvalues : List α) {net : Network α} :
      ReachableKeeping net → net.size ≤ newvalues.length →
      ReachableKeeping (Network.set_values net newvalues).2
  | add_link (a b : Nat) {net : Network α} :
      ReachableKeeping net → ReachableKeeping (Network.add_link net a b).2
  | random_connect (rng : RandomService α) {net : Network α} {k : Nat} {net' : Network α} :
      ReachableKeeping net → net.links = [] →
      Network.random_connect rng net = some (k, net') → ReachableKeeping net'


/-- A random service for the examples: node `it` draws one candidate,
`it + 1`; position `i` of `values` receives `i`. -/
def next_rng : RandomService Nat :=
  ⟨fun i => i, fun _ => 1, fun it _ => (it : Int) + 1⟩

/-- Three nodes in a chain: the state after `resize(3)` and `random_connect`
on a new network, with `next_rng`. -/
def chain_net : Network Nat := ⟨[0, 1, 2], [(0, 1), (1, 0), (1, 2), (2, 1)]⟩

/-- The state after `resize(2)`, `add_link(0, 1)` and `resize(0)` on a new
network, with `next_rng`. -/
def dangling_net : Network Nat :=
  resize next_rng 0 (add_link (resize next_rng 2 empty) 0 1).2

/-- Two linked nodes: the state after `resize(2)` and `add_link(0, 1)` on a
new network, with `next_rng`. -/
def linked_net : Network Nat := (add_link (resize next_rng 2 empty) 0 1).2

/-- `Network::sorted_values`: a copy of `values`, sorted by `std::sort` with
the comparison `std::greater<double>`, is returned; the object is `const` and
only the copy is sorted.  The values are taken in a linear order, where the
descending arrangement of a list is unique (`sorted_values_unique`), and the
library sort is written as an insertion sort. -/
def sorted_values [LinearOrder α] (net : Network α) : List α :=
  let sortvals := net.values
  sortvals.insertionSort (fun a b => a ≥ b)

/-- A random service for the examples: node 0 draws the one candidate 1, the
other nodes draw no candidate. -/
def first_rng : RandomService Nat :=
  ⟨fun i => i, fun it => if it = 0 then 1 else 0, fun _ _ => 1⟩

/-- Three nodes, the last two linked: the state after `resize(3)` and
`add_link(1, 2)` on a new network, with `next_rng`. -/
def pair_net : Network Nat := (add_link (resize next_rng 3 empty) 1 2).2

/-- Three nodes, each linked to the other two: the chain with
`add_link(0, 2)` on top. -/
def triangle_net : Network Nat := (add_link chain_net 0 2).2

/-- Four nodes in a chain: the state after `resize(4)` and `random_connect`
on a new network, with `next_rng`. -/
def long_chain_net : Network Nat :=
  ⟨[0, 1, 2, 3], [(0, 1), (1, 0), (1, 2), (2, 1), (2, 3), (3, 2)]⟩

/-- Two nodes and a link to a third that is gone: the state after `resize(3)`,
`add_link(0, 2)` and `resize(2)` on a new network, with `next_rng`. -/
def shrunk_net : Network Nat :=
  resize next_rng 2 (add_link (resize next_rng 3 empty) 0 2).2

/-- The number of candidates drawn by node `j` that are the index `i`. -/
def drawn_towards (rng : RandomService α) (j i : Nat) : Nat :=
  (candidates rng j).countP (fun c => to_size_t c == i)

/-! ## The multimap -/

theorem multimap_insert_perm (p : Nat × Nat) (l : List (Nat × Nat)) :
    (multimap_insert p l).Perm (p :: l) := by
  induction l with
  | nil => exact List.Perm.refl _
  | cons q rest ih =>
    unfold multimap_insert
    split
    · exact List.Perm.refl _
    · exact (List.Perm.cons q ih).trans (List.Perm.swap p q rest)

theorem mem_multimap_insert (p q : Nat × Nat) (l : List (Nat × Nat)) :
    q ∈ multimap_insert p l ↔ q = p ∨ q ∈ l := by
  rw [(multimap_insert_perm p l).mem_iff, List.mem_cons]

/-- The list of entries stays ordered by key under `links.insert`, so that
the entries of one key are the contiguous range `equal_range` returns. -/
theorem multimap_insert_ordered (p : Nat × Nat) (l : List (Nat × Nat))
    (h : l.Pairwise (fun x y => x.1 ≤ y.1)) :
    (multimap_insert p l).Pairwise (fun x y => x.1 ≤ y.1) := by
  induction l with
  | nil => exact List.pairwise_singleton _ _
  | cons q rest ih =>
    rw [List.pairwise_cons] at h
    unfold multimap_insert
    split
    · rename_i hlt
      refine List.pairwise_cons.2 ⟨?_, List.pairwise_cons.2 h⟩
      intro y hy
      rcases List.mem_cons.1 hy with h1 | h1
      · subst h1; exact Nat.le_of_lt hlt
      · exact Nat.le_trans (Nat.le_of_lt hlt) (h.1 y h1)
    · rename_i hge
      refine List.pairwise_cons.2 ⟨?_, ih h.2⟩
      intro y hy
      rcases (mem_multimap_insert p y rest).1 hy with h1 | h1
      · subst h1; exact Nat.not_lt.1 hge
      · exact h.1 y h1

theorem mem_neighbors (net : Network α) (n b : Nat) :
    b ∈ neighbors net n ↔ (n, b) ∈ net.links := by
  unfold neighbors
  simp only [List.mem_map, List.mem_filter, beq_iff_eq]
  constructor
  · rintro ⟨⟨x, y⟩, ⟨hmem, hx⟩, hy⟩
    simp only at hx hy
    subst hx; subst hy
    exact hmem
  · intro h
    exact ⟨(n, b), ⟨h, rfl⟩, rfl⟩

/-! ## add_link -/

theorem add_link_of_mem (net : Network α) (a b : Nat) (h : b ∈ neighbors net a) :
    add_link net a b = (false, net) := by
  simp only [add_link, if_pos h]

theorem add_link_of_ok (net : Network α) (a b : Nat) (h1 : b ∉ neighbors net a)
    (h2 : a ≠ b ∧ b < net.values.length ∧ a < net.values.length) :
    add_link net a b = (true, { net with
      links := multimap_insert (b, a) (multimap_insert (a, b) net.links) }) := by
  simp only [add_link, if_neg h1, if_pos h2]

theorem add_link_of_not_ok (net : Network α) (a b : Nat) (h1 : b ∉ neighbors net a)
    (h2 : ¬ (a ≠ b ∧ b < net.values.length ∧ a < net.values.length)) :
    add_link net a b = (false, net) := by
  simp only [add_link, if_neg h1, if_neg h2]

theorem add_link_fst (net : Network α) (a b : Nat) :
    (add_link net a b).1 = true ↔
      (a ≠ b ∧ a < net.size ∧ b < net.size ∧ b ∉ neighbors net a) := by
  unfold size
  by_cases h1 : b ∈ neighbors net a
  · rw [add_link_of_mem net a b h1]
    constructor
    · intro h; cases h
    · rintro ⟨-, -, -, h⟩; exact absurd h1 h
  · by_cases h2 : a ≠ b ∧ b < net.values.length ∧ a < net.values.length
    · rw [add_link_of_ok net a b h1 h2]
      exact ⟨fun _ => ⟨h2.1, h2.2.2, h2.2.1, h1⟩, fun _ => rfl⟩
    · rw [add_link_of_not_ok net a b h1 h2]
      constructor
      · intro h; cases h
      · rintro ⟨h3, h4, h5, -⟩; exact absurd ⟨h3, h5, h4⟩ h2

theorem add_link_snd_of_true (net : Network α) (a b : Nat)
    (h : (add_link net a b).1 = true) :
    (add_link net a b).2 =
      { net with links := multimap_insert (b, a) (multimap_insert (a, b) net.links) } := by
  have h0 := (add_link_fst net a b).1 h
  rw [add_link_of_ok net a b h0.2.2.2 ⟨h0.1, h0.2.2.1, h0.2.1⟩]

theorem add_link_snd_of_false (net : Network α) (a b : Nat)
    (h : (add_link net a b).1 = false) : (add_link net a b).2 = net := by
  by_cases h1 : b ∈ neighbors net a
  · rw [add_link_of_mem net a b h1]
  · by_cases h2 : a ≠ b ∧ b < net.values.length ∧ a < net.values.length
    · rw [add_link_of_ok net a b h1 h2] at h
      cases h
    · rw [add_link_of_not_ok net a b h1 h2]

theorem add_link_values (net : Network α) (a b : Nat) :
    (add_link net a b).2.values = net.values := by
  cases h : (add_link net a b).1
  · rw [add_link_snd_of_false net a b h]
  · rw [add_link_snd_of_true net a b h]

theorem add_link_links_perm (net : Network α) (a b : Nat)
    (h : (add_link net a b).1 = true) :
    (add_link net a b).2.links.Perm ((a, b) :: (b, a) :: net.links) := by
  rw [add_link_snd_of_true net a b h]
  exact (multimap_insert_perm (b, a) _).trans
    ((List.Perm.cons (b, a) (multimap_insert_perm (a, b) net.links)).trans
      (List.Perm.swap (a, b) (b, a) net.links))

theorem wellFormed_nil : WellFormed [] :=
  ⟨fun _ _ hm => absurd hm (List.not_mem_nil _), fun _ hm => absurd hm (List.not_mem_nil _),
    List.nodup_nil⟩

theorem add_link_wellFormed (net : Network α) (a b : Nat) (hw : WellFormed net.links) :
    WellFormed (add_link net a b).2.links := by
  cases h : (add_link net a b).1
  · rw [add_link_snd_of_false net a b h]; exact hw
  · obtain ⟨hab, -, -, hnb⟩ := (add_link_fst net a b).1 h
    rw [mem_neighbors] at hnb
    have hba : (b, a) ∉ net.links := fun hm => hnb (hw.1 b a hm)
    have hperm := add_link_links_perm net a b h
    have hmem : ∀ q, q ∈ (add_link net a b).2.links ↔
        q = (a, b) ∨ q = (b, a) ∨ q ∈ net.links := by
      intro q
      rw [hperm.mem_iff, List.mem_cons, List.mem_cons]
    refine ⟨?_, ?_, ?_⟩
    · intro x y hxy
      rcases (hmem (x, y)).1 hxy with h1 | h1 | h1
      · cases h1; exact (hmem _).2 (Or.inr (Or.inl rfl))
      · cases h1; exact (hmem _).2 (Or.inl rfl)
      · exact (hmem _).2 (Or.inr (Or.inr (hw.1 x y h1)))
    · intro x hx
      rcases (hmem (x, x)).1 hx with h1 | h1 | h1
      · cases h1; exact hab rfl
      · cases h1; exact hab rfl
      · exact hw.2.1 x h1
    · rw [hperm.nodup_iff, List.nodup_cons, List.nodup_cons]
      refine ⟨?_, hba, hw.2.2⟩
      intro hm
      rcases List.mem_cons.1 hm with h1 | h1
      · cases h1; exact hab rfl
      · exact hnb h1

theorem degree_add_link_of_true (net : Network α) (a b n : Nat)
    (h : (add_link net a b).1 = true) :
    degree (add_link net a b).2 n =
      degree net n + (if a = n then 1 else 0) + (if b = n then 1 else 0) := by
  unfold degree
  rw [(add_link_links_perm net a b h).countP_eq]
  simp only [List.countP_cons, beq_iff_eq]
  omega

theorem add_link_again (net : Network α) (a b : Nat) (h : (add_link net a b).1 = true) :
    add_link (add_link net a b).2 a b = (false, (add_link net a b).2) := by
  apply add_link_of_mem
  rw [mem_neighbors, (add_link_links_perm net a b h).mem_iff]
  exact List.mem_cons_self _ _

theorem length_neighbors (net : Network α) (n : Nat) :
    (neighbors net n).length = degree net n := by
  unfold neighbors degree
  rw [List.length_map, List.countP_eq_length_filter]

/-! ## random_connect -/

theorem connect_node_induct (P : Network α → Prop)
    (hP : ∀ net a b, P net → P (add_link net a b).2)
    (it : Nat) (v : List Int) (st : Nat × Network α) (h : P st.2) :
    P (connect_node it v st).2 := by
  unfold connect_node
  induction v generalizing st with
  | nil => exact h
  | cons c rest ih =>
    rw [List.foldl_cons]
    exact ih _ (hP st.2 it (to_size_t c) h)

theorem connect_nodes_induct (P : Network α → Prop)
    (hP : ∀ net a b, P net → P (add_link net a b).2)
    (rng : RandomService α) (its : List Nat) (st : Nat × Network α) (h : P st.2) :
    P (connect_nodes rng its st).2 := by
  unfold connect_nodes
  induction its generalizing st with
  | nil => exact h
  | cons it rest ih =>
    rw [List.foldl_cons]
    exact ih _ (connect_node_induct P hP it _ st h)

theorem random_connect_eq_some (rng : RandomService α) (net : Network α)
    (r : Nat × Network α) (h : random_connect rng net = some r) :
    net.links = [] ∧
      r = connect_nodes rng (List.range net.values.length) (0, { net with links := [] }) := by
  unfold random_connect at h
  cases hl : net.links with
  | nil =>
    rw [hl] at h
    simp only [erase_links, Option.some.injEq] at h
    exact ⟨rfl, h.symm⟩
  | cons q rest =>
    rw [hl] at h
    simp only [erase_links] at h
    cases h

theorem random_connect_of_no_links (rng : RandomService α) (net : Network α)
    (h : net.links = []) :
    random_connect rng net =
      some (connect_nodes rng (List.range net.values.length) (0, { net with links := [] })) := by
  unfold random_connect
  rw [h]
  rfl

theorem random_connect_induct (P : Network α → Prop)
    (hP : ∀ net a b, P net → P (add_link net a b).2)
    (rng : RandomService α) (net : Network α) (r : Nat × Network α)
    (h : random_connect rng net = some r) (h0 : P { net with links := [] }) : P r.2 := by
  rw [(random_connect_eq_some rng net r h).2]
  exact connect_nodes_induct P hP rng _ _ h0

theorem random_connect_values (rng : RandomService α) (net : Network α)
    (r : Nat × Network α) (h : random_connect rng net = some r) :
    r.2.values = net.values :=
  random_connect_induct (fun s => s.values = net.values)
    (fun s a b hs => (add_link_values s a b).trans hs) rng net r h rfl

theorem add_link_inRange (net : Network α) (a b : Nat) (hr : InRange net) :
    InRange (add_link net a b).2 := by
  cases h : (add_link net a b).1
  · rw [add_link_snd_of_false net a b h]; exact hr
  · obtain ⟨-, ha, hb, -⟩ := (add_link_fst net a b).1 h
    intro p hp
    have hsize : (add_link net a b).2.size = net.size := by
      unfold size; rw [add_link_values]
    rw [hsize]
    rw [(add_link_links_perm net a b h).mem_iff, List.mem_cons, List.mem_cons] at hp
    rcases hp with h1 | h1 | h1
    · subst h1; exact ⟨ha, hb⟩
    · subst h1; exact ⟨hb, ha⟩
    · exact hr p h1

theorem connect_node_induct_pair (P : Nat × Network α → Prop)
    (hP : ∀ s a b, P s →
      P (if (add_link s.2 a b).1 = true then s.1 + 1 else s.1, (add_link s.2 a b).2))
    (it : Nat) (v : List Int) (st : Nat × Network α) (h : P st) :
    P (connect_node it v st) := by
  unfold connect_node
  induction v generalizing st with
  | nil => exact h
  | cons c rest ih =>
    rw [List.foldl_cons]
    exact ih _ (hP st it (to_size_t c) h)

theorem connect_nodes_induct_pair (P : Nat × Network α → Prop)
    (hP : ∀ s a b, P s →
      P (if (add_link s.2 a b).1 = true then s.1 + 1 else s.1, (add_link s.2 a b).2))
    (rng : RandomService α) (its : List Nat) (st : Nat × Network α) (h : P st) :
    P (connect_nodes rng its st) := by
  unfold connect_nodes
  induction its generalizing st with
  | nil => exact h
  | cons it rest ih =>
    rw [List.foldl_cons]
    exact ih _ (connect_node_induct_pair P hP it _ st h)

theorem sum_countP_key (l : List (Nat × Nat)) (N : Nat) (h : ∀ p ∈ l, p.1 < N) :
    ∑ n ∈ Finset.range N, l.countP (fun p => p.1 == n) = l.length := by
  induction l with
  | nil => simp
  | cons x rest ih =>
    have hx : x.1 ∈ Finset.range N := Finset.mem_range.2 (h x (List.mem_cons_self _ _))
    have hrest := ih (fun p hp => h p (List.mem_cons_of_mem _ hp))
    simp only [List.countP_cons, beq_iff_eq, Finset.sum_add_distrib, Finset.sum_ite_eq, hx,
      if_true, List.length_cons]
    rw [← hrest]

theorem sum_degree_of_inRange (net : Network α) (h : InRange net) :
    ∑ n ∈ Finset.range net.size, degree net n = net.links.length :=
  sum_countP_key net.links net.size (fun p hp => (h p hp).1)

/-- From a state without links `random_connect` returns, the node count is
kept, and twice the count returned is the sum of the degrees of the nodes. -/
theorem random_connect_count_of_no_links (rng : RandomService α) (net : Network α)
    (h : net.links = []) :
    ∃ r, random_connect rng net = some r ∧ r.2.size = net.size ∧ InRange r.2 ∧
      ∑ n ∈ Finset.range r.2.size, degree r.2 n = 2 * r.1 := by
  refine ⟨_, random_connect_of_no_links rng net h, ?_⟩
  have key := connect_nodes_induct_pair
    (fun s : Nat × Network α =>
      s.2.values = net.values ∧ InRange s.2 ∧ s.2.links.length = 2 * s.1)
    (by
      rintro s a b ⟨hv, hr, hl⟩
      refine ⟨(add_link_values s.2 a b).trans hv, add_link_inRange s.2 a b hr, ?_⟩
      cases hb : (add_link s.2 a b).1
      · rw [add_link_snd_of_false s.2 a b hb]
        simpa using hl
      · rw [(add_link_links_perm s.2 a b hb).length_eq]
        simp only [List.length_cons, if_true, hl]
        omega)
    rng (List.range net.values.length) (0, { net with links := [] })
    ⟨rfl, fun p hp => absurd hp (List.not_mem_nil _), rfl⟩
  obtain ⟨hv, hr, hl⟩ := key
  refine ⟨?_, hr, ?_⟩
  · unfold size; rw [hv]
  · rw [sum_degree_of_inRange _ hr, hl]

/-! ## Bounds on what random_connect builds -/

theorem candidates_length (rng : RandomService α) (it : Nat) :
    (candidates rng it).length = rng.poisson it := by
  unfold candidates
  rw [List.length_map, List.length_range]

theorem sum_map_range (f : Nat → Nat) (n : Nat) :
    ((List.range n).map f).sum = ∑ i ∈ Finset.range n, f i := by
  induction n with
  | zero => rfl
  | succ n ih =>
    rw [List.range_succ, List.map_append, List.sum_append, ih, Finset.sum_range_succ]
    simp

theorem connect_node_count_le (it : Nat) (v : List Int) (st : Nat × Network α) :
    (connect_node it v st).1 ≤ st.1 + v.length := by
  unfold connect_node
  induction v generalizing st with
  | nil => exact Nat.le_refl _
  | cons c rest ih =>
    rw [List.foldl_cons, List.length_cons]
    refine Nat.le_trans (ih _) ?_
    show (if (add_link st.2 it (to_size_t c)).1 = true then st.1 + 1 else st.1) +
      rest.length ≤ st.1 + (rest.length + 1)
    split <;> omega

theorem connect_nodes_count_le (rng : RandomService α) (its : List Nat)
    (st : Nat × Network α) :
    (connect_nodes rng its st).1 ≤ st.1 + (its.map rng.poisson).sum := by
  unfold connect_nodes
  induction its generalizing st with
  | nil => exact Nat.le_refl _
  | cons it rest ih =>
    rw [List.foldl_cons, List.map_cons, List.sum_cons]
    refine Nat.le_trans (ih _) ?_
    have h := connect_node_count_le it (candidates rng it) st
    rw [candidates_length] at h
    omega

theorem length_le_of_wellFormed (l : List (Nat × Nat)) (N : Nat) (hw : WellFormed l)
    (hr : ∀ p ∈ l, p.1 < N ∧ p.2 < N) : l.length ≤ N * (N - 1) := by
  have hsub : l.toFinset ⊆ (Finset.range N).offDiag := by
    intro p hp
    rw [List.mem_toFinset] at hp
    rw [Finset.mem_offDiag, Finset.mem_range, Finset.mem_range]
    refine ⟨(hr p hp).1, (hr p hp).2, ?_⟩
    intro he
    apply hw.2.1 p.1
    have hpe : p = (p.1, p.1) := Prod.ext rfl he.symm
    rw [← hpe]
    exact hp
  have hcard := Finset.card_le_card hsub
  rw [List.toFinset_card_of_nodup hw.2.2, Finset.offDiag_card, Finset.card_range] at hcard
  rw [Nat.mul_sub_one]
  exact hcard

/-- From a state without links `random_connect` returns; every entry it leaves
has both indices below `N`; the count returned is at most the sum of the
Poisson values drawn and at most `N * (N - 1) / 2`. -/
theorem random_connect_bounds_of_no_links (rng : RandomService α) (net : Network α)
    (h : net.links = []) :
    ∃ r, random_connect rng net = some r ∧ InRange r.2 ∧ r.2.size = net.size ∧
      r.1 ≤ ∑ i ∈ Finset.range net.size, rng.poisson i ∧
      r.1 ≤ net.size * (net.size - 1) / 2 := by
  obtain ⟨r, hr, hsize, hin, hsum⟩ := random_connect_count_of_no_links rng net h
  refine ⟨r, hr, hin, hsize, ?_, ?_⟩
  · rw [(random_connect_eq_some rng net r hr).2, ← sum_map_range]
    have hle := connect_nodes_count_le rng (List.range net.values.length)
      (0, { net with links := [] })
    simpa [size] using hle
  · have hw : WellFormed r.2.links :=
      random_connect_induct (fun s => WellFormed s.links)
        (fun s a b hs => add_link_wellFormed s a b hs) rng net r hr wellFormed_nil
    have hlen := length_le_of_wellFormed r.2.links r.2.size hw hin
    rw [sum_degree_of_inRange r.2 hin] at hsum
    rw [hsize] at hlen
    rw [hsum] at hlen
    omega

/-! ## Degrees after random_connect -/

theorem degree_add_link_le (net : Network α) (a b i : Nat) :
    degree (add_link net a b).2 i ≤ degree net i + (if a = i ∨ b = i then 1 else 0) := by
  cases h : (add_link net a b).1
  · rw [add_link_snd_of_false net a b h]
    exact Nat.le_add_right _ _
  · have hab := ((add_link_fst net a b).1 h).1
    rw [degree_add_link_of_true net a b i h]
    by_cases ha : a = i
    · have hb : b ≠ i := fun hb => hab (ha.trans hb.symm)
      simp [ha, hb]
    · by_cases hb : b = i
      · simp [ha, hb]
      · simp [ha, hb]

theorem connect_node_degree_le (it : Nat) (v : List Int) (st : Nat × Network α) (i : Nat) :
    degree (connect_node it v st).2 i ≤
      degree st.2 i +
        (if it = i then v.length else v.countP (fun c => to_size_t c == i)) := by
  unfold connect_node
  induction v generalizing st with
  | nil => exact Nat.le_add_right _ _
  | cons c rest ih =>
    rw [List.foldl_cons]
    refine Nat.le_trans (ih _) ?_
    have h1 := degree_add_link_le st.2 it (to_size_t c) i
    show degree (add_link st.2 it (to_size_t c)).2 i + _ ≤ _
    by_cases hit : it = i
    · simp only [hit, if_true, true_or, List.length_cons] at h1 ⊢
      omega
    · simp only [hit, if_false, false_or, List.countP_cons, beq_iff_eq] at h1 ⊢
      omega

theorem connect_nodes_degree_le (rng : RandomService α) (its : List Nat)
    (st : Nat × Network α) (i : Nat) :
    degree (connect_nodes rng its st).2 i ≤
      degree st.2 i +
        (its.map (fun it => if it = i then rng.poisson it else drawn_towards rng it i)).sum := by
  unfold connect_nodes
  induction its generalizing st with
  | nil => exact Nat.le_add_right _ _
  | cons it rest ih =>
    rw [List.foldl_cons, List.map_cons, List.sum_cons]
    refine Nat.le_trans (ih _) ?_
    have h := connect_node_degree_le it (candidates rng it) st i
    rw [candidates_length] at h
    unfold drawn_towards
    omega

/-! ## set_values -/

theorem copy_values_eq (newvalues values : List α) (k : Nat)
    (h1 : k ≤ newvalues.length) (h2 : k ≤ values.length) :
    copy_values k newvalues values = newvalues.take k ++ values.drop k := by
  unfold copy_values
  induction k with
  | zero => simp
  | succ k ih =>
    have hk1 : k < newvalues.length := h1
    have hk2 : k < values.length := h2
    rw [List.range_succ, List.foldl_append, ih (Nat.le_of_lt hk1) (Nat.le_of_lt hk2)]
    simp only [List.foldl_cons, List.foldl_nil]
    rw [List.getElem?_eq_getElem hk1]
    simp only []
    have hlen : (List.take k newvalues).length ≤ k := by
      rw [List.length_take]; exact Nat.min_le_left _ _
    rw [List.set_append_right k _ hlen, List.length_take, Nat.min_eq_left (Nat.le_of_lt hk1),
      Nat.sub_self, List.drop_eq_getElem_cons hk2, List.set_cons_zero, List.take_succ,
      List.getElem?_eq_getElem hk1, Option.toList, List.append_assoc]
    rfl

theorem set_values_of_le (net : Network α) (newvalues : List α)
    (h : net.values.length ≤ newvalues.length) :
    set_values net newvalues =
      (net.values.length, { net with values := newvalues.take net.values.length }) := by
  unfold set_values
  rw [if_neg (Nat.not_lt.2 h)]
  rcases Nat.lt_or_eq_of_le h with hlt | heq
  · simp only [if_pos hlt]
    rw [copy_values_eq newvalues net.values _ h (Nat.le_refl _), List.drop_length,
      List.append_nil, List.length_take, Nat.min_eq_left h]
  · have hn : ¬ net.values.length < newvalues.length := by omega
    simp only [if_neg hn]
    rw [heq, List.take_length]

theorem set_values_of_lt (net : Network α) (newvalues : List α)
    (h : newvalues.length < net.values.length) :
    set_values net newvalues = (newvalues.length, { net with values := newvalues }) := by
  unfold set_values
  rw [if_pos h, copy_values_eq newvalues net.values _ (Nat.le_refl _) (Nat.le_of_lt h)]
  have hn : ¬ (List.take newvalues.length newvalues ++
      List.drop newvalues.length net.values).length < newvalues.length := by
    rw [List.length_append, List.length_take, Nat.min_self]
    omega
  simp only [if_neg hn]

theorem set_values_links (net : Network α) (newvalues : List α) :
    (set_values net newvalues).2.links = net.links := rfl

theorem set_values_size_of_le (net : Network α) (newvalues : List α)
    (h : net.size ≤ newvalues.length) : (set_values net newvalues).2.size = net.size := by
  unfold size at h ⊢
  rw [set_values_of_le net newvalues h]
  exact (List.length_take _ _).trans (Nat.min_eq_left h)

theorem resize_size (rng : RandomService α) (n : Nat) (net : Network α) :
    (resize rng n net).size = n := by
  simp [resize, size]

/-! ## Reachable states -/

theorem reachable_wellFormed (net : Network α) (h : Reachable net) : WellFormed net.links := by
  induction h with
  | init => exact wellFormed_nil
  | resize rng size _ ih => exact ih
  | set_values newvalues _ ih => exact ih
  | add_link a b _ ih => exact add_link_wellFormed _ a b ih
  | random_connect rng _ hr _ =>
    exact random_connect_induct (fun s => WellFormed s.links)
      (fun s a b hs => add_link_wellFormed s a b hs) rng _ _ hr wellFormed_nil

theorem reachable_ordered (net : Network α) (h : Reachable net) :
    net.links.Pairwise (fun x y => x.1 ≤ y.1) := by
  have hadd : ∀ (s : Network α) (a b : Nat), s.links.Pairwise (fun x y => x.1 ≤ y.1) →
      (add_link s a b).2.links.Pairwise (fun x y => x.1 ≤ y.1) := by
    intro s a b hs
    cases hb : (add_link s a b).1
    · rw [add_link_snd_of_false s a b hb]; exact hs
    · rw [add_link_snd_of_true s a b hb]
      exact multimap_insert_ordered _ _ (multimap_insert_ordered _ _ hs)
  induction h with
  | init => exact List.Pairwise.nil
  | resize rng size _ ih => exact ih
  | set_values newvalues _ ih => exact ih
  | add_link a b _ ih => exact hadd _ a b ih
  | random_connect rng _ hr _ =>
    exact random_connect_induct (fun s => s.links.Pairwise (fun x y => x.1 ≤ y.1))
      hadd rng _ _ hr List.Pairwise.nil

/-- A reachable state with its links taken away is reachable: the states
reached are the same when every `random_connect` starts from no links. -/
theorem reachable_without_links (net : Network α) (h : Reachable net) :
    Reachable { net with links := [] } := by
  induction h with
  | init => exact Reachable.init
  | resize rng size _ ih => exact Reachable.resize rng size ih
  | set_values newvalues _ ih => exact Reachable.set_values newvalues ih
  | add_link a b _ ih =>
    rw [add_link_values]
    exact ih
  | random_connect rng _ hr ih =>
    have hv := random_connect_values rng _ _ hr
    simp only at hv
    rw [hv]
    exact ih

theorem reachable_chain_net : Reachable chain_net :=
  Reachable.random_connect next_rng
    (Reachable.resize next_rng 3 (Reachable.init : Reachable (empty : Network Nat)))
    (by decide : random_connect next_rng (resize next_rng 3 empty) = some (2, chain_net))

/-! ## The claims on add_link -/

/-- C1: `add_link(a, b)` returns true exactly when `a != b`, `a < N`, `b < N`
and `b` is not in `neighbors(a)`; when it returns true the links afterwards are
the old entries with `(a, b)` and `(b, a)` inserted, nothing else added or
removed, and the values are untouched; it returns false whenever `a >= N` or
`b >= N`. -/
theorem add_link_spec (net : Network α) (a b : Nat) :
    ((add_link net a b).1 = true ↔
      (a ≠ b ∧ a < net.size ∧ b < net.size ∧ b ∉ neighbors net a)) ∧
    ((add_link net a b).1 = true →
      (add_link net a b).2.links =
          multimap_insert (b, a) (multimap_insert (a, b) net.links) ∧
        (add_link net a b).2.links.Perm ((a, b) :: (b, a) :: net.links) ∧
        (add_link net a b).2.values = net.values) ∧
    (net.size ≤ a ∨ net.size ≤ b → (add_link net a b).1 = false) := by
  refine ⟨add_link_fst net a b, ?_, ?_⟩
  · intro h
    refine ⟨?_, add_link_links_perm net a b h, add_link_values net a b⟩
    rw [add_link_snd_of_true net a b h]
  · intro h
    cases hr : (add_link net a b).1
    · rfl
    · obtain ⟨-, ha, hb, -⟩ := (add_link_fst net a b).1 hr
      rcases h with h | h
      · exact absurd ha (Nat.not_lt.2 h)
      · exact absurd hb (Nat.not_lt.2 h)

theorem add_link_spec_witness :
    (add_link chain_net 0 2).1 = true ∧
      (add_link chain_net 0 2).2.links =
        [(0, 1), (0, 2), (1, 0), (1, 2), (2, 1), (2, 0)] ∧
      (add_link chain_net 0 3).1 = false :=
  ⟨by decide,
    ((add_link_spec chain_net 0 2).2.1 (by decide)).1.trans (by decide),
    (add_link_spec chain_net 0 3).2.2 (Or.inr (by decide))⟩

/-- C2: whenever `add_link(a, b)` returns false, which it does for a self-loop,
for an index out of range and for an edge that exists, the state (links and
values) is what it was before the call. -/
theorem add_link_rejected_unchanged (net : Network α) (a b : Nat)
    (h : (add_link net a b).1 = false) :
    (add_link net a b).2 = net ∧
      (a = b ∨ net.size ≤ a ∨ net.size ≤ b ∨ b ∈ neighbors net a) := by
  refine ⟨add_link_snd_of_false net a b h, ?_⟩
  by_contra hc
  simp only [not_or, not_le] at hc
  have ht := (add_link_fst net a b).2 ⟨hc.1, hc.2.1, hc.2.2.1, hc.2.2.2⟩
  rw [h] at ht
  cases ht

theorem add_link_rejected_unchanged_witness :
    (add_link chain_net 1 1).2 = chain_net ∧ (add_link chain_net 0 7).2 = chain_net ∧
      (add_link chain_net 2 1).2 = chain_net :=
  ⟨(add_link_rejected_unchanged chain_net 1 1 (by decide)).1,
    (add_link_rejected_unchanged chain_net 0 7 (by decide)).1,
    (add_link_rejected_unchanged chain_net 2 1 (by decide)).1⟩

/-! ## The claims on reachable states -/

/-- In every state reached from a new network by calls of `resize`,
`set_values` and `add_link` and by calls of `random_connect` on a network
without links, `b` in `neighbors(n)` implies `n` in `neighbors(b)`. -/
theorem reachable_neighbors_symmetric (net : Network α) (h : Reachable net) (n b : Nat)
    (hb : b ∈ neighbors net n) : n ∈ neighbors net b := by
  rw [mem_neighbors] at hb ⊢
  exact (reachable_wellFormed net h).1 n b hb

theorem reachable_neighbors_symmetric_witness :
    Reachable chain_net ∧ 2 ∈ neighbors chain_net 1 ∧ 1 ∈ neighbors chain_net 2 :=
  ⟨reachable_chain_net, by decide,
    reachable_neighbors_symmetric chain_net reachable_chain_net 1 2 (by decide)⟩

/-- C3, at a failing input: after `resize(3)` and `add_link(1, 2)` the links
are symmetric, and the next call in the sequence, `random_connect`, erases the
entry under the iterator of its first loop and then increments that iterator:
the call has no defined result, whatever the random service hands back, so
the sequence reaches no state in which the symmetry holds. -/
theorem symmetry_not_kept_by_random_connect :
    Reachable pair_net ∧ pair_net.links = [(1, 2), (2, 1)] ∧
      neighbors pair_net 1 = [2] ∧ neighbors pair_net 2 = [1] ∧
      (∀ rng : RandomService Nat, random_connect rng pair_net = none) ∧
      ¬ ∃ (rng : RandomService Nat) (r : Nat × Network Nat),
        random_connect rng pair_net = some r :=
  ⟨Reachable.add_link 1 2
      (Reachable.resize next_rng 3 (Reachable.init : Reachable (empty : Network Nat))),
    by decide, by decide, by decide, fun _ => rfl,
    fun ⟨_, _, h⟩ => Option.noConfusion h⟩

/-- In every state reached from a new network by calls of `resize`,
`set_values` and `add_link` and by calls of `random_connect` on a network
without links, the links hold no entry `(a, a)` and no entry twice:
`neighbors(n)` never contains `n` and never contains an index twice. -/
theorem reachable_simple_graph (net : Network α) (h : Reachable net) :
    (∀ a, (a, a) ∉ net.links) ∧ net.links.Nodup ∧
      ∀ n, n ∉ neighbors net n ∧ (neighbors net n).Nodup := by
  obtain ⟨-, hirr, hnd⟩ := reachable_wellFormed net h
  refine ⟨hirr, hnd, fun n => ⟨?_, ?_⟩⟩
  · rw [mem_neighbors]; exact hirr n
  · unfold neighbors
    refine List.Nodup.map_on ?_ (hnd.filter _)
    intro x hx y hy hxy
    rw [List.mem_filter, beq_iff_eq] at hx hy
    exact Prod.ext (hx.2.trans hy.2.symm) hxy

theorem reachable_simple_graph_witness :
    Reachable chain_net ∧ chain_net.links.Nodup ∧ 1 ∉ neighbors chain_net 1 :=
  ⟨reachable_chain_net, (reachable_simple_graph chain_net reachable_chain_net).2.1,
    ((reachable_simple_graph chain_net reachable_chain_net).2.2 1).1⟩

/-- C4, at a failing input: after `resize(3)`, `random_connect` (node `it`
drawing the candidate `it + 1`) and `add_link(0, 2)` the links are those of a
triangle, no entry `(a, a)` and no entry twice, and the next call in the
sequence, a second `random_connect`, erases the entry under the iterator of
its first loop and then increments that iterator: the call has no defined
result, whatever the random service hands back, so the sequence reaches no
state in which the links are those of a simple graph. -/
theorem simple_graph_not_kept_by_random_connect :
    Reachable triangle_net ∧
      triangle_net.links = [(0, 1), (0, 2), (1, 0), (1, 2), (2, 1), (2, 0)] ∧
      triangle_net.links.Nodup ∧
      (∀ rng : RandomService Nat, random_connect rng triangle_net = none) ∧
      ¬ ∃ (rng : RandomService Nat) (r : Nat × Network Nat),
        random_connect rng triangle_net = some r :=
  ⟨Reachable.add_link 0 2 reachable_chain_net, by decide, by decide, fun _ => rfl,
    fun ⟨_, _, h⟩ => Option.noConfusion h⟩

theorem reachable_linked_net : Reachable linked_net :=
  Reachable.add_link 0 1
    (Reachable.resize next_rng 2 (Reachable.init : Reachable (empty : Network Nat)))

/-- C5, as stated, fails: after `resize(2)`, `add_link(0, 1)` and `resize(0)`
the node count is 0 and the entries `(0, 1)` and `(1, 0)` are still stored. -/
theorem in_range_fails_after_shrinking_resize :
    Reachable dangling_net ∧ dangling_net.size = 0 ∧
      dangling_net.links = [(0, 1), (1, 0)] ∧ ¬ InRange dangling_net := by
  refine ⟨Reachable.resize next_rng 0 reachable_linked_net, by decide, by decide, ?_⟩
  intro h
  have h01 := h (0, 1) (by decide)
  exact absurd h01.1 (by decide)

/-- C5, amended: in every state reached from a new network by calls of
`add_link`, of `random_connect` made while the network holds no link, of
`set_values` with a vector at least as long as the node count, and of
`resize(size)` made while no stored entry holds an index at or above `size`,
every stored entry `(a, b)` has `a < N` and `b < N`. -/
theorem reachable_keeping_in_range (net : Network α) (h : ReachableKeeping net) :
    ∀ p ∈ net.links, p.1 < net.size ∧ p.2 < net.size := by
  induction h with
  | init => intro p hp; exact absurd hp (List.not_mem_nil _)
  | resize rng size _ hs _ =>
    intro p hp
    rw [resize_size]
    exact hs p hp
  | set_values newvalues _ hle ih =>
    intro p hp
    rw [set_values_size_of_le _ newvalues hle]
    exact ih p hp
  | add_link a b _ ih => exact add_link_inRange _ a b ih
  | random_connect rng _ _ hr _ =>
    exact random_connect_induct InRange add_link_inRange rng _ _ hr
      (fun p hp => absurd hp (List.not_mem_nil _))

theorem reachable_keeping_in_range_witness :
    ReachableKeeping chain_net ∧ ∀ p ∈ chain_net.links, p.1 < 3 ∧ p.2 < 3 :=
  have hr : ReachableKeeping chain_net :=
    ReachableKeeping.random_connect next_rng
      (ReachableKeeping.resize next_rng 3
        (ReachableKeeping.init : ReachableKeeping (empty : Network Nat))
        (fun p hp => absurd hp (List.not_mem_nil _)))
      rfl
      (by decide : random_connect next_rng (resize next_rng 3 empty) = some (2, chain_net))
  ⟨hr, reachable_keeping_in_range chain_net hr⟩

/-! ## The claims on random_connect -/

/-- C6, at a failing input: on the two linked nodes left by `resize(2)` and
`add_link(0, 1)` the erasing loop of `random_connect` erases the entry under
its iterator and then increments that iterator, so the call has no defined
result, whatever the random service hands back; from the same two nodes
without links it returns 1, half the sum of the degrees. -/
theorem random_connect_undefined_on_linked_net :
    Reachable linked_net ∧ linked_net.links = [(0, 1), (1, 0)] ∧
      (∀ rng : RandomService Nat, random_connect rng linked_net = none) ∧
      random_connect next_rng { linked_net with links := [] } = some (1, linked_net) :=
  ⟨reachable_linked_net, by decide, fun _ => rfl, by decide⟩

/-- C7, at a failing input: with the same three nodes and the same outputs of
the random service, `random_connect` returns 2 and leaves the chain when the
network has no links, and has no defined result when the network holds the
links of the chain, which is the state its own first call left. -/
theorem random_connect_twice_undefined :
    random_connect next_rng (resize next_rng 3 empty) = some (2, chain_net) ∧
      chain_net.values = (resize next_rng 3 (empty : Network Nat)).values ∧
      random_connect next_rng chain_net = none :=
  ⟨by decide, by decide, by decide⟩

/-! ## The claims on set_values -/

/-- C8, at a failing input: with three values and an empty `newValues`,
`set_values` returns 0 and leaves no node, where the claim has it return 3 and
keep three nodes. -/
theorem set_values_shrinks :
    (set_values (⟨[4, 5, 6], [(0, 1), (1, 0)]⟩ : Network Nat) []).1 = 0 ∧
      (set_values (⟨[4, 5, 6], [(0, 1), (1, 0)]⟩ : Network Nat) []).2.size = 0 ∧
      (⟨[4, 5, 6], [(0, 1), (1, 0)]⟩ : Network Nat).size = 3 :=
  ⟨by decide, by decide, by decide⟩

/-- C9, at a failing input: with values `[1,2,3,4,5]` and `newValues`
`[9,9,9]`, `set_values` leaves the values `[9,9,9]` and returns 3, where the
claim has `[9,9,9,4,5]` and 5. -/
theorem set_values_drops_tail :
    set_values (⟨[1, 2, 3, 4, 5], []⟩ : Network Nat) [9, 9, 9] = (3, ⟨[9, 9, 9], []⟩) := by
  decide

/-- C10: when `newValues` has at least `N` entries, `set_values` leaves as
values the first `N` entries of `newValues`, all of `newValues` when it has
exactly `N`, returns `N`, keeps the node count and does not touch the links. -/
theorem set_values_takes_first (net : Network α) (newvalues : List α)
    (h : net.size ≤ newvalues.length) :
    (set_values net newvalues).2.values = newvalues.take net.size ∧
      (set_values net newvalues).1 = net.size ∧
      (set_values net newvalues).2.size = net.size ∧
      (newvalues.length = net.size → (set_values net newvalues).2.values = newvalues) ∧
      (set_values net newvalues).2.links = net.links := by
  have hs := set_values_of_le net newvalues h
  refine ⟨?_, ?_, set_values_size_of_le net newvalues h, ?_, rfl⟩
  · rw [hs]; rfl
  · rw [hs]; rfl
  · intro he
    rw [hs]
    show List.take net.values.length newvalues = newvalues
    have he2 : net.values.length = newvalues.length := he.symm
    rw [he2, List.take_length]

theorem set_values_takes_first_witness :
    (set_values (⟨[1, 2, 3], []⟩ : Network Nat) [7, 8, 9, 10]).2.values = [7, 8, 9] ∧
      (set_values (⟨[1, 2, 3], []⟩ : Network Nat) [7, 8, 9, 10]).1 = 3 :=
  ⟨(set_values_takes_first ⟨[1, 2, 3], []⟩ [7, 8, 9, 10] (by decide)).1,
    (set_values_takes_first ⟨[1, 2, 3], []⟩ [7, 8, 9, 10] (by decide)).2.1⟩

/-! ## sorted_values, degree and resize -/

/-- Whatever sorting algorithm stands behind `std::sort`, a descending
permutation of `values` is the list `sorted_values` returns. -/
theorem sorted_values_unique [LinearOrder α] (net : Network α) (l : List α)
    (hp : l.Perm net.values) (hs : l.Sorted (fun a b => a ≥ b)) : l = sorted_values net :=
  List.eq_of_perm_of_sorted (hp.trans (List.perm_insertionSort _ net.values).symm) hs
    (List.sorted_insertionSort (fun a b : α => a ≥ b) net.values)

/-- C11: `sorted_values()` returns a permutation of `values` (same length, same
multiset) in descending order, each entry at least the next one; the call
returns a list and leaves the network as it is. -/
theorem sorted_values_spec [LinearOrder α] (net : Network α) :
    (sorted_values net).Perm net.values ∧
      (sorted_values net).length = net.values.length ∧
      (sorted_values net).Sorted (fun a b => a ≥ b) ∧
      ∀ (i : Nat) (h : i + 1 < (sorted_values net).length),
        (sorted_values net)[i] ≥ (sorted_values net)[i + 1] := by
  have hs : (sorted_values net).Sorted (fun a b => a ≥ b) :=
    List.sorted_insertionSort (fun a b : α => a ≥ b) net.values
  refine ⟨List.perm_insertionSort _ _, List.length_insertionSort _ _, hs, ?_⟩
  intro i h
  exact List.pairwise_iff_getElem.1 hs i (i + 1) (Nat.lt_of_succ_lt h) h (Nat.lt_succ_self i)

theorem sorted_values_spec_witness :
    sorted_values chain_net = [2, 1, 0] ∧ (sorted_values chain_net).Perm [0, 1, 2] ∧
      (sorted_values chain_net).Sorted (fun a b => a ≥ b) :=
  ⟨by decide, (sorted_values_spec chain_net).1, (sorted_values_spec chain_net).2.2.1⟩

/-- C12: for distinct `a`, `b` below `N` with `b` not in `neighbors(a)`, the
first `add_link(a, b)` returns true and raises `degree(a)` and `degree(b)` by
one each; a second `add_link(a, b)` right after returns false and leaves the
state, hence both degrees, as they are. -/
theorem add_link_twice (net : Network α) (a b : Nat) (hab : a ≠ b) (ha : a < net.size)
    (hb : b < net.size) (hn : b ∉ neighbors net a) :
    (add_link net a b).1 = true ∧
      degree (add_link net a b).2 a = degree net a + 1 ∧
      degree (add_link net a b).2 b = degree net b + 1 ∧
      (add_link (add_link net a b).2 a b).1 = false ∧
      degree (add_link (add_link net a b).2 a b).2 a = degree (add_link net a b).2 a ∧
      degree (add_link (add_link net a b).2 a b).2 b = degree (add_link net a b).2 b := by
  have h1 : (add_link net a b).1 = true := (add_link_fst net a b).2 ⟨hab, ha, hb, hn⟩
  have h2 := add_link_again net a b h1
  refine ⟨h1, ?_, ?_, ?_, ?_, ?_⟩
  · rw [degree_add_link_of_true net a b a h1, if_pos rfl, if_neg (Ne.symm hab)]
  · rw [degree_add_link_of_true net a b b h1, if_neg hab, if_pos rfl]
  · rw [h2]
  · rw [h2]
  · rw [h2]

theorem add_link_twice_witness :
    (add_link chain_net 0 2).1 = true ∧ degree chain_net 0 = 1 ∧
      degree (add_link chain_net 0 2).2 0 = 2 ∧
      (add_link (add_link chain_net 0 2).2 0 2).1 = false :=
  have h := add_link_twice chain_net 0 2 (by decide) (by decide) (by decide) (by decide)
  ⟨h.1, by decide, h.2.1, h.2.2.2.1⟩

/-- C13: in every state and for every index `a`, in range or not,
`add_link(a, a)` returns false and leaves the state, hence `degree(a)`, as it
is. -/
theorem add_link_self (net : Network α) (a : Nat) :
    (add_link net a a).1 = false ∧ (add_link net a a).2 = net ∧
      degree (add_link net a a).2 a = degree net a := by
  have h1 : (add_link net a a).1 = false := by
    cases h : (add_link net a a).1
    · rfl
    · exact absurd rfl ((add_link_fst net a a).1 h).1
  have h2 := add_link_snd_of_false net a a h1
  exact ⟨h1, h2, by rw [h2]⟩

/-- C14: after `resize(size)` the node count is `size`, zero included, and the
value at each position is the one the random service wrote there. -/
theorem resize_spec (rng : RandomService α) (n : Nat) (net : Network α) :
    (resize rng n net).size = n ∧
      (resize rng n net).values = (List.range n).map rng.normal ∧
      ∀ i, i < n → (resize rng n net).values[i]? = some (rng.normal i) := by
  refine ⟨resize_size rng n net, rfl, ?_⟩
  intro i hi
  show ((List.range n).map rng.normal)[i]? = some (rng.normal i)
  rw [List.getElem?_map, List.getElem?_range hi]
  rfl

theorem resize_spec_witness :
    (resize next_rng 0 chain_net).size = 0 ∧ (resize next_rng 4 chain_net).size = 4 ∧
      (resize next_rng 4 chain_net).values[3]? = some 3 :=
  ⟨(resize_spec next_rng 0 chain_net).1, (resize_spec next_rng 4 chain_net).1,
    (resize_spec next_rng 4 chain_net).2.2 3 (by decide)⟩

/-- C15: `resize(size)` leaves the links as they are: the list of entries,
`degree(n)` and `neighbors(n)` are the same before and after for every index
`n`, whether or not `n` is below the new node count. -/
theorem resize_keeps_links (rng : RandomService α) (k : Nat) (net : Network α) :
    (resize rng k net).links = net.links ∧
      ∀ n, degree (resize rng k net) n = degree net n ∧
        neighbors (resize rng k net) n = neighbors net n :=
  ⟨rfl, fun _ => ⟨rfl, rfl⟩⟩

set_option maxRecDepth 8192 in
/-- C17, at a failing input: after `resize(4)` and `random_connect` (node
`it` drawing the candidate `it + 1`) the links are a chain in which
`degree(1)` is 2, the length of `neighbors(1)` and the number of distinct
indices in it, and the next call in the sequence, a second `random_connect`,
erases the entry under the iterator of its first loop and then increments that
iterator: the call has no defined result, whatever the random service hands
back, so the sequence reaches no state in which the degrees count distinct
neighbors. -/
theorem degree_not_kept_by_random_connect :
    random_connect next_rng (resize next_rng 4 empty) = some (3, long_chain_net) ∧
      degree long_chain_net 1 = 2 ∧ neighbors long_chain_net 1 = [0, 2] ∧
      (neighbors long_chain_net 1).toFinset.card = 2 ∧
      (∀ rng : RandomService Nat, random_connect rng long_chain_net = none) ∧
      ¬ ∃ (rng : RandomService Nat) (r : Nat × Network Nat),
        random_connect rng long_chain_net = some r :=
  ⟨by decide, by decide, by decide, by decide, fun _ => rfl,
    fun ⟨_, _, h⟩ => Option.noConfusion h⟩

/-- In every state reached from a new network by calls of `resize`,
`set_values` and `add_link` and by calls of `random_connect` on a network
without links, `degree(n)` is the length of `neighbors(n)` and the number of
distinct indices in it, for every index `n`; an index without an entry has
degree 0, below `N` or not. -/
theorem reachable_degree_neighbors (net : Network α) (h : Reachable net) (n : Nat) :
    degree net n = (neighbors net n).length ∧
      degree net n = (neighbors net n).toFinset.card ∧
      ((∀ b, (n, b) ∉ net.links) → degree net n = 0) := by
  have hnd : (neighbors net n).Nodup := by
    unfold neighbors
    refine List.Nodup.map_on ?_ ((reachable_wellFormed net h).2.2.filter _)
    intro x hx y hy hxy
    rw [List.mem_filter, beq_iff_eq] at hx hy
    exact Prod.ext (hx.2.trans hy.2.symm) hxy
  refine ⟨(length_neighbors net n).symm, ?_, ?_⟩
  · rw [List.toFinset_card_of_nodup hnd, length_neighbors]
  · intro hno
    unfold degree
    rw [List.countP_eq_zero]
    intro p hp hk
    rw [beq_iff_eq] at hk
    exact hno p.2 (by rw [← hk]; exact hp)

theorem reachable_degree_neighbors_witness :
    Reachable chain_net ∧ degree chain_net 1 = 2 ∧ (neighbors chain_net 1).length = 2 ∧
      degree chain_net 7 = 0 :=
  ⟨reachable_chain_net,
    (reachable_degree_neighbors chain_net reachable_chain_net 1).1.trans (by decide),
    by decide,
    (reachable_degree_neighbors chain_net reachable_chain_net 7).2.2
      (fun b hb => by simp [chain_net] at hb)⟩

/-! ## The remaining claims on random_connect and add_link -/

/-- C16, at a failing input: after `resize(2)`, `add_link(0, 1)` and
`resize(0)` the network has no node and still holds two entries, and the
erasing loop of `random_connect` erases the entry under its iterator and then
increments that iterator, so the call has no defined result, whatever the
random service hands back; on a newly constructed network it returns 0 and
leaves no link. -/
theorem random_connect_undefined_after_resize_zero :
    Reachable dangling_net ∧ dangling_net.size = 0 ∧
      dangling_net.links = [(0, 1), (1, 0)] ∧
      (∀ rng : RandomService Nat, random_connect rng dangling_net = none) ∧
      (∀ rng : RandomService Nat, random_connect rng empty = some (0, empty)) :=
  ⟨Reachable.resize next_rng 0 reachable_linked_net, by decide, by decide,
    fun _ => rfl, fun _ => rfl⟩

/-- C18, as stated, fails: with two nodes, node 0 drawing the one candidate 1
and node 1 drawing none, `random_connect` returns 1 and leaves node 1 with
degree 1, above its Poisson value 0. -/
theorem degree_exceeds_poisson_draw :
    random_connect first_rng (resize first_rng 2 empty) = some (1, linked_net) ∧
      first_rng.poisson 1 = 0 ∧ degree linked_net 1 = 1 ∧
      ¬ (degree linked_net 1 ≤ first_rng.poisson 1) :=
  ⟨by decide, by decide, by decide, by decide⟩

/-- C18, amended: after a `random_connect` that returns, the degree of every
node `i` below `N` is at most the Poisson value drawn for `i` plus the number
of candidates equal to `i` that the other nodes drew. -/
theorem random_connect_degree_le (rng : RandomService α) (net : Network α)
    (r : Nat × Network α) (h : random_connect rng net = some r) (i : Nat)
    (hi : i < net.size) :
    degree r.2 i ≤ rng.poisson i +
      ∑ j ∈ (Finset.range net.size).erase i, drawn_towards rng j i := by
  rw [(random_connect_eq_some rng net r h).2]
  have hle := connect_nodes_degree_le rng (List.range net.values.length)
    (0, { net with links := [] }) i
  rw [sum_map_range] at hle
  have hmem : i ∈ Finset.range net.values.length := Finset.mem_range.2 hi
  rw [← Finset.add_sum_erase _ _ hmem, if_pos rfl] at hle
  have hcongr : ∑ j ∈ (Finset.range net.values.length).erase i,
      (if j = i then rng.poisson j else drawn_towards rng j i) =
      ∑ j ∈ (Finset.range net.values.length).erase i, drawn_towards rng j i := by
    refine Finset.sum_congr rfl ?_
    intro j hj
    rw [if_neg (Finset.ne_of_mem_erase hj)]
  rw [hcongr] at hle
  have hz : degree ({ net with links := [] } : Network α) i = 0 := rfl
  simp only [hz, Nat.zero_add] at hle
  exact hle

theorem random_connect_degree_le_witness :
    random_connect first_rng (resize first_rng 2 empty) = some (1, linked_net) ∧
      drawn_towards first_rng 0 1 = 1 ∧
      degree linked_net 1 ≤ first_rng.poisson 1 +
        ∑ j ∈ (Finset.range (resize first_rng 2 (empty : Network Nat)).size).erase 1,
          drawn_towards first_rng j 1 :=
  ⟨by decide, by decide,
    random_connect_degree_le first_rng (resize first_rng 2 empty) (1, linked_net)
      (by decide) 1 (by decide)⟩

/-- C19: in every state whose links are symmetric, `add_link(a, b)` and
`add_link(b, a)` return the same boolean and leave links with the same
entries (one list is a permutation of the other) and the same values. -/
theorem add_link_comm (net : Network α) (a b : Nat)
    (hs : ∀ x y, (x, y) ∈ net.links → (y, x) ∈ net.links) :
    (add_link net a b).1 = (add_link net b a).1 ∧
      (add_link net a b).2.links.Perm (add_link net b a).2.links ∧
      (∀ p, p ∈ (add_link net a b).2.links ↔ p ∈ (add_link net b a).2.links) ∧
      (add_link net a b).2.values = (add_link net b a).2.values := by
  have hiff : (add_link net a b).1 = true ↔ (add_link net b a).1 = true := by
    rw [add_link_fst, add_link_fst, mem_neighbors, mem_neighbors]
    constructor
    · rintro ⟨h1, h2, h3, h4⟩
      exact ⟨Ne.symm h1, h3, h2, fun hm => h4 (hs b a hm)⟩
    · rintro ⟨h1, h2, h3, h4⟩
      exact ⟨Ne.symm h1, h3, h2, fun hm => h4 (hs a b hm)⟩
  have hperm : (add_link net a b).2.links.Perm (add_link net b a).2.links := by
    cases h1 : (add_link net a b).1
    · have h2 : (add_link net b a).1 = false := by
        cases h : (add_link net b a).1
        · rfl
        · rw [hiff.2 h] at h1; cases h1
      rw [add_link_snd_of_false net a b h1, add_link_snd_of_false net b a h2]
    · exact (add_link_links_perm net a b h1).trans
        ((List.Perm.swap (b, a) (a, b) net.links).trans
          (add_link_links_perm net b a (hiff.1 h1)).symm)
  refine ⟨?_, hperm, fun p => hperm.mem_iff, ?_⟩
  · cases h1 : (add_link net a b).1
    · cases h : (add_link net b a).1
      · rfl
      · rw [hiff.2 h] at h1; cases h1
    · exact (hiff.1 h1).symm
  · rw [add_link_values, add_link_values]

theorem add_link_comm_witness :
    (add_link chain_net 0 2).1 = true ∧ (add_link chain_net 2 0).1 = true ∧
      (add_link chain_net 0 2).2.links.Perm (add_link chain_net 2 0).2.links :=
  have h := add_link_comm chain_net 0 2 (reachable_wellFormed chain_net reachable_chain_net).1
  ⟨by decide, h.1.symm.trans (by decide), h.2.1⟩

/-- C20, at a failing input: after `resize(3)`, `add_link(0, 2)` and
`resize(2)` the network has two nodes and holds the entries `(0, 2)` and
`(2, 0)`, and the erasing loop of `random_connect` erases the entry under its
iterator and then increments that iterator, so the call has no defined result
and no state in which the entries are below `N`, whatever the random service
hands back. -/
theorem random_connect_undefined_on_dangling_links :
    Reachable shrunk_net ∧ shrunk_net.size = 2 ∧ shrunk_net.links = [(0, 2), (2, 0)] ∧
      (∀ rng : RandomService Nat, random_connect rng shrunk_net = none) :=
  ⟨Reachable.resize next_rng 2
      (Reachable.add_link 0 2
        (Reachable.resize next_rng 3 (Reachable.init : Reachable (empty : Network Nat)))),
    by decide, by decide, fun _ => rfl⟩

end Network
